import Mathlib

/-!
# Verification of the Sudoku CSP solver

A shallow embedding of the repository's two source files:

* `sudoku.py` — the `Sudoku` board class: a 9×9 grid stored as a list of
  rows, with row/column/region views, validity checks and a neighbor query.
* `solver.py` — the `SudokuSolver` CSP engine: variables, domains, the arc
  list, `REVISE`, `AC3`, `MRV`, `LSV`, `BACKTRACK` and `solve`.

Python `dict`/`set` values are modelled as follows: the board is a
`List (List Nat)` exactly as in the source; the domain mapping is a function
`Cell → List Nat` whose lists stand for CPython sets of small integers
(for the integers 1..9 a CPython set iterates in ascending order, so a
sorted, duplicate-free list is a faithful value model; all set mutations in
the source — comprehension initialisation, `remove` inside an iteration over
a `.copy()`, replacement by a fresh singleton — preserve that shape).
Where reference semantics (sharing of set objects) is observable, the
separate heap model `DomainHeap` below makes the sharing explicit.
Loops that the source runs without a bound (`AC3`'s worklist, `BACKTRACK`'s
recursion) take an explicit fuel argument and return `none` when it runs
out; `none` is also used for a raised `KeyError` (`set.pop` on an empty
set), the only fault the embedded code can raise.
-/

namespace SudokuSpec

/-- A cell coordinate `(row, column)`, the `tuple` used throughout the source. -/
abbrev Cell : Type := Nat × Nat

/-- The board representation of `sudoku.py`: a list of rows of integers,
`0` meaning empty. -/
abbrev Board : Type := List (List Nat)

/-- `Sudoku.__init__`: `self.cells = [(i, j) for j in range(9) for i in range(9)]` —
the 81 cell coordinates with `j` in the outer loop (column-major). -/
def cells : List Cell :=
  (List.range 9).flatMap (fun j => (List.range 9).map (fun i => (i, j)))

/-- Reading `self.board[row][col]` (out-of-range reads, which Python would
fault on, default to `0`; all theorems below stay inside a well-formed
9×9 board). -/
def cellVal (b : Board) (c : Cell) : Nat :=
  (b.getD c.1 []).getD c.2 0

/-- `Sudoku.get_rows`: `[row for row in self.board]` — the rows themselves. -/
def get_rows (b : Board) : List (List Nat) := b

/-- `Sudoku.get_columns`: for each `i < 9` the list `[row[i] for row in rows]`. -/
def get_columns (b : Board) : List (List Nat) :=
  (List.range 9).map (fun i => (get_rows b).map (fun row => row.getD i 0))

/-- `Sudoku.get_regions`: for `row_bound` then `col_bound` ranging over
`0, 3, 6` (written here as `3*rb`, `3*cb` with `rb, cb < 3`), the 3×3 block
read row by row. -/
def get_regions (b : Board) : List (List Nat) :=
  (List.range 3).flatMap (fun rb =>
    (List.range 3).map (fun cb =>
      (List.range 3).flatMap (fun di =>
        (List.range 3).map (fun dj => cellVal b (3 * rb + di, 3 * cb + dj)))))

/-- The inner loop of `Sudoku.valid`: walk one sub-area keeping the `seen`
set, skipping zeros, failing on a repeated non-zero value. -/
def validSeen (seen : List Nat) : List Nat → Bool
  | [] => true
  | c :: rest =>
    if c = 0 then validSeen seen rest
    else if c ∈ seen then false
    else validSeen (c :: seen) rest

/-- `Sudoku.valid`: every sub-area passes the seen-set scan. -/
def valid (area : List (List Nat)) : Bool :=
  area.all (fun sub => validSeen [] sub)

/-- `Sudoku.is_valid`: rows, columns and regions are all duplicate-free
(ignoring zeros). -/
def is_valid (b : Board) : Bool :=
  valid (get_rows b) && valid (get_columns b) && valid (get_regions b)

/-- The zero count of `Sudoku.is_solved`: total number of `0` entries. -/
def zeroCount (b : Board) : Nat :=
  ((get_rows b).map (fun row => row.count 0)).sum

/-- `Sudoku.is_solved`: no zeros and valid. -/
def is_solved (b : Board) : Bool :=
  zeroCount b == 0 && is_valid b

/-- Row neighbors of a cell: `(row, j)` for `j ≠ col`. -/
def rowMates (c : Cell) : List Cell :=
  ((List.range 9).filter (fun j => j ≠ c.2)).map (fun j => (c.1, j))

/-- Column neighbors of a cell: `(i, col)` for `i ≠ row`. -/
def colMates (c : Cell) : List Cell :=
  ((List.range 9).filter (fun i => i ≠ c.1)).map (fun i => (i, c.2))

/-- 3×3 box members of a cell other than the cell itself, in the source's
row-major visiting order. -/
def boxMates (c : Cell) : List Cell :=
  ((List.range 3).flatMap (fun di =>
    (List.range 3).map (fun dj =>
      (3 * (c.1 / 3) + di, 3 * (c.2 / 3) + dj)))).filter (fun d => d ≠ c)

/-- Appending an element to an accumulator unless already present: the
effect of `set.add` on insertion order. -/
def addUnique (acc : List Cell) (c : Cell) : List Cell :=
  if c ∈ acc then acc else acc ++ [c]

/-- `Sudoku.get_neighbors`: the set of row, column and box neighbors.  The
source returns a Python `set`, whose iteration order is implementation
defined; the embedding fixes insertion order (row mates, then column mates,
then box mates).  All theorems about `AC3` are proved for an arbitrary
queue of neighbor arcs, so nothing below depends on this choice beyond the
concrete-input computations, which are order-robust facts. -/
def get_neighbors (c : Cell) : List Cell :=
  (rowMates c ++ colMates c ++ boxMates c).foldl addUnique []

/-- The neighbor relation of the constraint graph, read off from
`get_neighbors`: distinct cells sharing a row, a column or a 3×3 box. -/
def Neighbor (x y : Cell) : Prop :=
  x ≠ y ∧ (x.1 = y.1 ∨ x.2 = y.2 ∨ (x.1 / 3 = y.1 / 3 ∧ x.2 / 3 = y.2 / 3))

instance decNeighbor (x y : Cell) : Decidable (Neighbor x y) := by
  unfold Neighbor; exact inferInstance

/-- Well-formedness of a board value: 9 rows of 9 entries, the shape every
`Sudoku` object has by construction. -/
def WF (b : Board) : Prop :=
  b.length = 9 ∧ ∀ r ∈ b, r.length = 9

instance decWF (b : Board) : Decidable (WF b) := by
  unfold WF; exact inferInstance

/-- `SudokuSolver.enforce_node_consistency`: the initial domain of a cell —
`set(range(1, 10))` (ascending `[1..9]`) for an empty cell, the singleton of
the pre-filled value otherwise. -/
def initDomains (b : Board) (c : Cell) : List Nat :=
  if cellVal b c = 0 then List.range' 1 9 else [cellVal b c]

/-- `SudokuSolver.create_graph`: for every variable, one arc to each of its
neighbors — `self.arcs`. -/
def sudokuArcs : List (Cell × Cell) :=
  cells.flatMap (fun v => (get_neighbors v).map (fun n => (v, n)))

/-- The survival test of `REVISE`: `any(y != value for y in domain_Y)` — the
candidate `v` survives when `Domain[y]` offers at least one different value. -/
def reviseKeep (dY : List Nat) (v : Nat) : Bool :=
  dY.any (fun w => w ≠ v)

/-- The content of `Domain[x]` after `REVISE(x, y)`: the source iterates over
a copy of `Domain[x]` and removes each value failing the survival test, so
the result is the filter of the original by `reviseKeep`. -/
def reviseDom (dom : Cell → List Nat) (x y : Cell) : List Nat :=
  (dom x).filter (fun v => reviseKeep (dom y) v)

/-- The boolean `REVISE` returns: `revised` is set exactly when some value
was removed. -/
def reviseRevised (dom : Cell → List Nat) (x y : Cell) : Bool :=
  (dom x).any (fun v => !reviseKeep (dom y) v)

/-- Pointwise update of the domain mapping (the in-place mutation of
`self.domain[x]`, observed through the mapping as a value). -/
def updateDom (dom : Cell → List Nat) (x : Cell) (d : List Nat) : Cell → List Nat :=
  fun c => if c = x then d else dom c

/-- `SudokuSolver.AC3` with explicit fuel: pop the front arc `(x, y)` of the
FIFO worklist; if `REVISE(x, y)` changed `Domain[x]` then fail when the
domain emptied and otherwise append the arcs `(z, x)` for every neighbor
`z ≠ y` of `x`; return `true` when the worklist empties.  `none` means the
fuel ran out before the loop finished. -/
def ac3Fuel : Nat → List (Cell × Cell) → (Cell → List Nat) →
    Option (Bool × (Cell → List Nat))
  | _, [], dom => some (true, dom)
  | 0, _ :: _, _ => none
  | f + 1, (x, y) :: rest, dom =>
    if reviseDom dom x y = dom x then ac3Fuel f rest dom
    else
      if reviseDom dom x y = [] then some (false, updateDom dom x (reviseDom dom x y))
      else
        ac3Fuel f (rest ++ ((get_neighbors x).filter (fun z => z ≠ y)).map (fun z => (z, x)))
          (updateDom dom x (reviseDom dom x y))

/-- Membership of a variable in the assignment dict (`variable in assignment`),
with the assignment modelled as an insertion-ordered association list. -/
def asnFind (asn : List (Cell × List Nat)) (c : Cell) : Option (List Nat) :=
  (asn.find? (fun p => p.1 = c)).map Prod.snd

/-- The inner loop of `MRV`: scan the variables in enumeration order keeping
the best `(domain size, variable)` seen so far, updating only on a strictly
smaller size (`float("inf")` start is the `none` accumulator). -/
def mrvLoop (dom : Cell → List Nat) (asn : List (Cell × List Nat)) :
    List Cell → Option (Nat × Cell) → Option (Nat × Cell)
  | [], acc => acc
  | v :: rest, acc =>
    if asnFind asn v ≠ none then mrvLoop dom asn rest acc
    else
      match acc with
      | none => mrvLoop dom asn rest (some ((dom v).length, v))
      | some (s, m) =>
        if (dom v).length < s then mrvLoop dom asn rest (some ((dom v).length, v))
        else mrvLoop dom asn rest (some (s, m))

/-- `SudokuSolver.MRV` (also `SELECT_UNASSIGNED_VARIABLE`): the first
unassigned variable of minimal domain size, `none` when every variable is
assigned. -/
def MRV (dom : Cell → List Nat) (asn : List (Cell × List Nat)) : Option Cell :=
  (mrvLoop dom asn cells none).map Prod.snd

/-- The count `LSV` attaches to a value: the number of value occurrences
across the entire assignment equal to it (`for var, values in
assignment.items(): for value in values: ...`). -/
def countAssign (asn : List (Cell × List Nat)) (v : Nat) : Nat :=
  (asn.map (fun p => p.2.count v)).sum

/-- The ordering `LSV` sorts by: ascending count, ties by ascending value.
The source sorts the counter items with Python's stable `sorted` keyed on
the count alone; since the counter keys are inserted in ascending value
order (CPython sets of 1..9 iterate ascending), the stable result coincides
with this lexicographic order. -/
def lsvRel (asn : List (Cell × List Nat)) (a b : Nat) : Prop :=
  countAssign asn a < countAssign asn b ∨
    (countAssign asn a = countAssign asn b ∧ a ≤ b)

instance decLsvRel (asn : List (Cell × List Nat)) : DecidableRel (lsvRel asn) := by
  unfold lsvRel; exact fun a b => inferInstance

instance lsvRelTotal (asn : List (Cell × List Nat)) : IsTotal Nat (lsvRel asn) := by
  constructor; intro a b; unfold lsvRel; omega

instance lsvRelTrans (asn : List (Cell × List Nat)) : IsTrans Nat (lsvRel asn) := by
  constructor; intro a b c; unfold lsvRel; omega

/-- `SudokuSolver.LSV` (also `ORDERED_DOMAIN_VALUES`): the domain values of
the selected variable sorted ascending by global assignment count, ties in
ascending value order. -/
def LSV (dom : Cell → List Nat) (asn : List (Cell × List Nat)) (var : Cell) : List Nat :=
  List.insertionSort (lsvRel asn) (dom var)

/-- The all-zero board `Sudoku()` starts with. -/
def blankBoard : Board :=
  List.replicate 9 (List.replicate 9 0)

/-- Writing one value into a board: `board[row][col] = v`. -/
def setCell (b : Board) (c : Cell) (v : Nat) : Board :=
  b.set c.1 ((b.getD c.1 []).set c.2 v)

/-- Writing an assignment into a board, first value of each singleton
(`list(value)[0]`). -/
def writeAsn (b : Board) (asn : List (Cell × List Nat)) : Board :=
  asn.foldl (fun bb p => setCell bb p.1 (p.2.headD 0)) b

/-- `SudokuSolver.is_complete_assignment`: a non-empty assignment of
singletons that, written into a fresh blank board, yields a solved board. -/
def is_complete_assignment (asn : List (Cell × List Nat)) : Bool :=
  if asn = [] then false
  else if asn.all (fun p => p.2.length = 1) then is_solved (writeAsn blankBoard asn)
  else false

/-- `SudokuSolver.is_value_consistent`: no already-assigned neighbor holds
`value` as a singleton. -/
def is_value_consistent (asn : List (Cell × List Nat)) (var : Cell) (v : Nat) : Bool :=
  (get_neighbors var).all (fun n =>
    match asnFind asn n with
    | none => true
    | some vals => !(vals.length = 1 && v ∈ vals))

/-- The value loop of `BACKTRACK`, parameterised by the recursive call
`next` (the body of `for value in values`).  On a consistent value the
domains are snapshotted, the trial singleton is installed in domain and
assignment, `INFERENCE` (= `AC3`) runs, and on success the search recurses;
on any failure the assignment entry is dropped and the domains are restored
to the snapshot before the next value.  The snapshot/restore here has value
semantics; the source's snapshot shares the live set objects, a discrepancy
made explicit by the `DomainHeap` model below and never exercised on the
runs the theorems below evaluate (they make no trial assignment or none
that backtracks).  The first component of a `some` result is `some asn`
for a returned complete assignment and `none` for `return False`. -/
def btLoop
    (next : (Cell → List Nat) → List (Cell × List Nat) →
      Option (Option (List (Cell × List Nat)) × (Cell → List Nat)))
    (af : Nat) (dom : Cell → List Nat) (asn : List (Cell × List Nat)) (var : Cell) :
    List Nat → Option (Option (List (Cell × List Nat)) × (Cell → List Nat))
  | [] => some (none, dom)
  | v :: vs =>
    if is_value_consistent asn var v then
      match ac3Fuel af sudokuArcs (updateDom dom var [v]) with
      | none => none
      | some (ok, dom2) =>
        if ok then
          match next dom2 (asn ++ [(var, [v])]) with
          | none => none
          | some (some res, dom3) => some (some res, dom3)
          | some (none, _) => btLoop next af dom asn var vs
        else btLoop next af dom asn var vs
    else btLoop next af dom asn var vs

/-- `SudokuSolver.BACKTRACK` with recursion-depth fuel: completion check,
`MRV` selection (a `None` selection would make the source crash in `LSV`,
modelled as `none`), then the value loop over `LSV` order. -/
def backtrackFuel (af : Nat) : Nat → (Cell → List Nat) → List (Cell × List Nat) →
    Option (Option (List (Cell × List Nat)) × (Cell → List Nat))
  | 0, _, _ => none
  | f + 1, dom, asn =>
    if is_complete_assignment asn then some (some asn, dom)
    else
      match MRV dom asn with
      | none => none
      | some var => btLoop (backtrackFuel af f) af dom asn var (LSV dom asn var)

/-- The write-back loop of `solve`: `self.sudoku.board[row][col] = value.pop()`
over the domain mapping in variable enumeration order.  `set.pop` on the
ascending set model yields the first listed value and raises `KeyError`
(modelled `none`) on an empty domain. -/
def writeBack (b : Board) (dom : Cell → List Nat) : Option Board :=
  cells.foldl
    (fun ob c =>
      match ob, (dom c).head? with
      | some bb, some v => some (setCell bb c v)
      | _, _ => none)
    (some b)

/-- The observable outcome of `solve`, named after the message it prints.
The source has no failure message besides the invalid-input one: exhausted
searches still take the `backtracked` path. -/
inductive SolveOutcome
  | invalidInput
  | solvedByAC3
  | backtracked
deriving DecidableEq

/-- `SudokuSolver.solve`: reject invalid boards untouched; otherwise run
`AC3` and, unless it succeeded with the input board already solved, the
backtracking search; finally write every domain's popped value back into
the board.  `bf` bounds the search depth and `af` each `AC3` worklist. -/
def solveFuel (bf af : Nat) (b : Board) : Option (SolveOutcome × Board) :=
  if is_valid b = false then some (.invalidInput, b)
  else
    match ac3Fuel af sudokuArcs (initDomains b) with
    | none => none
    | some (ok, dom1) =>
      if ok && is_solved b then
        (writeBack b dom1).map (fun b2 => (.solvedByAC3, b2))
      else
        match backtrackFuel af bf dom1 [] with
        | none => none
        | some (_, dom2) => (writeBack b dom2).map (fun b2 => (.backtracked, b2))

/-! ### Analysis predicates

Vocabulary used by the theorems: arc consistency of a domain mapping, and
global solutions, stated over the embedded definitions. -/

/-- Arc `(x, y)` is consistent: every value of `Domain[x]` has a support
(a different value) in `Domain[y]`. -/
abbrev RevOK (dom : Cell → List Nat) (x y : Cell) : Prop :=
  ∀ v ∈ dom x, ∃ w ∈ dom y, w ≠ v

/-- Every arc of the constraint graph is consistent. -/
abbrev ArcConsistent (dom : Cell → List Nat) : Prop :=
  ∀ x ∈ cells, ∀ y ∈ cells, Neighbor x y → RevOK dom x y

/-- A queue of well-formed arcs: both endpoints are variables and each arc
joins neighbors. -/
abbrev ArcsWF (q : List (Cell × Cell)) : Prop :=
  ∀ a ∈ q, a.1 ∈ cells ∧ a.2 ∈ cells ∧ Neighbor a.1 a.2

/-- The `AC3` loop invariant: any constraint-graph arc not waiting in the
queue is already consistent. -/
abbrev QueueInv (q : List (Cell × Cell)) (dom : Cell → List Nat) : Prop :=
  ∀ x ∈ cells, ∀ y ∈ cells, Neighbor x y → (x, y) ∉ q → RevOK dom x y

/-- A complete rule-valid solution: one value per cell, distinct on every
pair of neighbors. -/
abbrev NeighborDistinct (s : Cell → Nat) : Prop :=
  ∀ x ∈ cells, ∀ y ∈ cells, Neighbor x y → s x ≠ s y

/-- The solution `s` is compatible with the domain mapping `dom`: each of
its values is still available. -/
abbrev SolutionIn (s : Cell → Nat) (dom : Cell → List Nat) : Prop :=
  ∀ c ∈ cells, s c ∈ dom c

/-! ### Concrete inputs used by counterexamples and witnesses -/

/-- A structurally valid board whose cell `(0,0)` is empty while its row
and column neighbors pin all nine values, so `AC3` wipes out its domain:
row 0 is `0,1,2,...,8` and cell `(1,0)` holds `9`. -/
def unsatBoard : Board :=
  [[0, 1, 2, 3, 4, 5, 6, 7, 8],
   [9, 0, 0, 0, 0, 0, 0, 0, 0],
   [0, 0, 0, 0, 0, 0, 0, 0, 0],
   [0, 0, 0, 0, 0, 0, 0, 0, 0],
   [0, 0, 0, 0, 0, 0, 0, 0, 0],
   [0, 0, 0, 0, 0, 0, 0, 0, 0],
   [0, 0, 0, 0, 0, 0, 0, 0, 0],
   [0, 0, 0, 0, 0, 0, 0, 0, 0],
   [0, 0, 0, 0, 0, 0, 0, 0, 0]]

/-- The run of the initial `AC3` pass on `unsatBoard`. -/
def unsatRun : Option (Bool × (Cell → List Nat)) :=
  ac3Fuel 2000 sudokuArcs (initDomains unsatBoard)

/-- The result flag of that run. -/
def unsatRunFlag : Option Bool :=
  unsatRun.map Prod.fst

/-- The domain mapping left behind by that run. -/
def unsatRunDom (c : Cell) : List Nat :=
  match unsatRun with
  | some p => p.2 c
  | none => []

/-- The result flag of the backtracking search `solve` launches on
`unsatBoard` after `AC3` fails (`some none` = the search itself returned
`False`). -/
def unsatSearch : Option (Option (List (Cell × List Nat))) :=
  match ac3Fuel 2000 sudokuArcs (initDomains unsatBoard) with
  | none => none
  | some p => (backtrackFuel 2000 5 p.2 []).map Prod.fst

/-- A valid completed grid (the classic example grid), used to exercise the
`AC3`-only success path of `solve`. -/
def solvedBoard : Board :=
  [[5, 3, 4, 6, 7, 8, 9, 1, 2],
   [6, 7, 2, 1, 9, 5, 3, 4, 8],
   [1, 9, 8, 3, 4, 2, 5, 6, 7],
   [8, 5, 9, 7, 6, 1, 4, 2, 3],
   [4, 2, 6, 8, 5, 3, 7, 9, 1],
   [7, 1, 3, 9, 2, 4, 8, 5, 6],
   [9, 6, 1, 5, 3, 7, 2, 8, 4],
   [2, 8, 7, 4, 1, 9, 6, 3, 5],
   [3, 4, 5, 2, 8, 6, 1, 7, 9]]

/-- A board with two `5`s in row 0: the spec's invalid-input example. -/
def twoFivesBoard : Board :=
  [[5, 0, 0, 0, 5, 0, 0, 0, 0],
   [0, 0, 0, 0, 0, 0, 0, 0, 0],
   [0, 0, 0, 0, 0, 0, 0, 0, 0],
   [0, 0, 0, 0, 0, 0, 0, 0, 0],
   [0, 0, 0, 0, 0, 0, 0, 0, 0],
   [0, 0, 0, 0, 0, 0, 0, 0, 0],
   [0, 0, 0, 0, 0, 0, 0, 0, 0],
   [0, 0, 0, 0, 0, 0, 0, 0, 0],
   [0, 0, 0, 0, 0, 0, 0, 0, 0]]

/-- A domain state with `Domain[(0,1)]` empty, as the buggy snapshot/restore
leaves behind after a failed sibling branch (see `DomainHeap` below): used
against the `REVISE` contract. -/
def emptyNbrDom : Cell → List Nat :=
  fun c => if c = (0, 0) then [1] else if c = (0, 1) then [] else List.range' 1 9

/-- A concrete domain state with `Domain[(0,0)] = {1,2}` and
`Domain[(0,1)] = {2}`, used to exercise the `REVISE` contract. -/
def wDom4 : Cell → List Nat :=
  fun c => if c = (0, 0) then [1, 2] else if c = (0, 1) then [2] else List.range' 1 9

/-- The constant two-value domain state, a small arc-consistent state used
to instantiate the `AC3` soundness statements. -/
def wDom3 : Cell → List Nat :=
  fun _ => [1, 2]

/-! ### Reference-semantics model of the snapshot in `BACKTRACK`

`saved_domains = {var: self.get_domain(var) for var in self.VARIABLES}`
copies the dict but stores the very set objects the live domain holds.
The heap model below separates the dict (a map from variable to a set
reference) from the store (the contents of each set object), which is the
observable difference between the source and a value copy. -/

/-- The solver's domain state with explicit set identity: `refOf` is the
dict `self.domain`, `store` gives each set object's current content, and
`next` is the next unused object id. -/
structure DomainHeap where
  refOf : Cell → Nat
  store : Nat → List Nat
  next : Nat

/-- What `self.get_domain(c)` reads: the content of the set the dict points
to. -/
def liveDomain (h : DomainHeap) (c : Cell) : List Nat :=
  h.store (h.refOf c)

/-- The snapshot `{var: self.get_domain(var) for var in self.VARIABLES}`:
a new dict holding the same set references — only the reference table is
copied. -/
def takeSnapshot (h : DomainHeap) : Cell → Nat :=
  h.refOf

/-- What the snapshot holds for a cell at a later time: the *current*
content of the set object it captured. -/
def snapshotView (h : DomainHeap) (snap : Cell → Nat) (c : Cell) : List Nat :=
  h.store (snap c)

/-- The trial assignment `self.domain[variable] = {value}`: the dict entry
is rebound to a fresh singleton set object; every other entry still shares
its object with any snapshot. -/
def assignTrial (h : DomainHeap) (c : Cell) (v : Nat) : DomainHeap :=
  { refOf := fun d => if d = c then h.next else h.refOf d
    store := fun r => if r = h.next then [v] else h.store r
    next := h.next + 1 }

/-- `REVISE(x, y)` during inference mutates the set object of `Domain[x]`
in place (`domain_X.remove(value)` over a copy): the store cell behind
`x`'s reference is filtered, under whatever dict — live or snapshot —
still points at it. -/
def reviseInPlace (h : DomainHeap) (x y : Cell) : DomainHeap :=
  { h with
    store := fun r =>
      if r = h.refOf x then (h.store r).filter (fun v => reviseKeep (liveDomain h y) v)
      else h.store r }

/-- The backtrack restore `self.domain = saved_domains`: only the reference
table is swapped back; the mutated set contents stay. -/
def restoreSnapshot (h : DomainHeap) (snap : Cell → Nat) : DomainHeap :=
  { h with refOf := snap }

/-- The heap state in which `BACKTRACK` takes the snapshot in the concrete
aliasing scenario: cells `(0,0)` and `(0,1)` each own a set containing
`1` and `2` (any two-cell fragment of the real 81-cell state suffices to
observe the sharing). -/
def heapStart : DomainHeap :=
  { refOf := fun c => if c = (0, 0) then 0 else if c = (0, 1) then 1 else 2
    store := fun r => if r = 0 then [1, 2] else if r = 1 then [1, 2] else List.range' 1 9
    next := 3 }

/-- The snapshot taken from `heapStart` before the trial assignment. -/
def heapSnap : Cell → Nat :=
  takeSnapshot heapStart

/-- The heap after the trial assignment `Domain[(0,0)] = {1}` followed by
the inference step `REVISE((0,1), (0,0))`, which removes `1` from the set
object cell `(0,1)` shares with the snapshot. -/
def heapAfterInfer : DomainHeap :=
  reviseInPlace (assignTrial heapStart (0, 0) 1) (0, 1) (0, 0)

/-- The heap after the backtrack restore from the snapshot. -/
def heapRestored : DomainHeap :=
  restoreSnapshot heapAfterInfer heapSnap

/-! ## Geometry of the variable set and of the constraint graph -/

theorem mem_cells {y : Cell} : y ∈ cells ↔ y.1 < 9 ∧ y.2 < 9 := by
  unfold cells
  simp only [List.mem_flatMap, List.mem_map, List.mem_range]
  constructor
  · rintro ⟨j, hj, i, hi, rfl⟩
    exact ⟨hi, hj⟩
  · rintro ⟨h1, h2⟩
    exact ⟨y.2, h2, y.1, h1, rfl⟩

theorem mem_addUnique {acc : List Cell} {c y : Cell} :
    y ∈ addUnique acc c ↔ y ∈ acc ∨ y = c := by
  unfold addUnique
  by_cases h : c ∈ acc
  · simp only [if_pos h]
    constructor
    · exact Or.inl
    · rintro (hy | rfl)
      · exact hy
      · exact h
  · simp [if_neg h]

theorem mem_foldl_addUnique :
    ∀ (l : List Cell) (acc : List Cell) (y : Cell),
      y ∈ l.foldl addUnique acc ↔ y ∈ acc ∨ y ∈ l := by
  intro l
  induction l with
  | nil => simp
  | cons c rest ih =>
    intro acc y
    rw [List.foldl_cons, ih, mem_addUnique, List.mem_cons]
    tauto

theorem mem_rowMates {x y : Cell} :
    y ∈ rowMates x ↔ y.1 = x.1 ∧ y.2 < 9 ∧ y.2 ≠ x.2 := by
  unfold rowMates
  simp only [List.mem_map, List.mem_filter, List.mem_range, decide_eq_true_eq]
  constructor
  · rintro ⟨j, ⟨hj, hne⟩, rfl⟩
    exact ⟨rfl, hj, hne⟩
  · rintro ⟨h1, h2, h3⟩
    exact ⟨y.2, ⟨h2, h3⟩, by rw [← h1]⟩

theorem mem_colMates {x y : Cell} :
    y ∈ colMates x ↔ y.2 = x.2 ∧ y.1 < 9 ∧ y.1 ≠ x.1 := by
  unfold colMates
  simp only [List.mem_map, List.mem_filter, List.mem_range, decide_eq_true_eq]
  constructor
  · rintro ⟨i, ⟨hi, hne⟩, rfl⟩
    exact ⟨rfl, hi, hne⟩
  · rintro ⟨h1, h2, h3⟩
    exact ⟨y.1, ⟨h2, h3⟩, by rw [← h1]⟩

theorem mem_boxMates {x y : Cell} :
    y ∈ boxMates x ↔ y ≠ x ∧ y.1 / 3 = x.1 / 3 ∧ y.2 / 3 = x.2 / 3 := by
  unfold boxMates
  simp only [List.mem_filter, List.mem_flatMap, List.mem_map, List.mem_range,
    decide_eq_true_eq]
  constructor
  · rintro ⟨⟨di, hdi, dj, hdj, rfl⟩, hne⟩
    refine ⟨hne, ?_, ?_⟩ <;> simp <;> omega
  · rintro ⟨hne, h1, h2⟩
    refine ⟨⟨y.1 % 3, by omega, y.2 % 3, by omega, ?_⟩, hne⟩
    have e1 : 3 * (x.1 / 3) + y.1 % 3 = y.1 := by omega
    have e2 : 3 * (x.2 / 3) + y.2 % 3 = y.2 := by omega
    rw [e1, e2]

theorem mem_get_neighbors {x y : Cell} (hy1 : y.1 < 9) (hy2 : y.2 < 9) :
    y ∈ get_neighbors x ↔ Neighbor x y := by
  unfold get_neighbors Neighbor
  rw [mem_foldl_addUnique]
  simp only [List.mem_append, List.not_mem_nil, false_or]
  rw [mem_rowMates, mem_colMates, mem_boxMates]
  constructor
  · rintro ((⟨h1, _, h3⟩ | ⟨h1, _, h3⟩) | ⟨hne, h1, h2⟩)
    · exact ⟨fun h => h3 (by rw [h]), Or.inl h1.symm⟩
    · exact ⟨fun h => h3 (by rw [h]), Or.inr (Or.inl h1.symm)⟩
    · exact ⟨Ne.symm hne, Or.inr (Or.inr ⟨h1.symm, h2.symm⟩)⟩
  · rintro ⟨hne, (h | h | ⟨h1, h2⟩)⟩
    · refine Or.inl (Or.inl ⟨h.symm, hy2, fun hc => hne ?_⟩)
      exact Prod.ext h hc.symm
    · refine Or.inl (Or.inr ⟨h.symm, hy1, fun hc => hne ?_⟩)
      exact Prod.ext hc.symm h
    · exact Or.inr ⟨Ne.symm hne, h1.symm, h2.symm⟩

theorem neighbor_symm {x y : Cell} (h : Neighbor x y) : Neighbor y x := by
  obtain ⟨h1, h2⟩ := h
  exact ⟨Ne.symm h1, by omega⟩

theorem neighbor_ne {x y : Cell} (h : Neighbor x y) : x ≠ y := h.1

theorem mem_sudokuArcs {x y : Cell} :
    (x, y) ∈ sudokuArcs ↔ x ∈ cells ∧ y ∈ get_neighbors x := by
  unfold sudokuArcs
  simp only [List.mem_flatMap, List.mem_map]
  constructor
  · rintro ⟨v, hv, n, hn, heq⟩
    rw [Prod.mk.injEq] at heq
    obtain ⟨rfl, rfl⟩ := heq
    exact ⟨hv, hn⟩
  · rintro ⟨hx, hy⟩
    exact ⟨x, hx, y, hy, rfl⟩

theorem sudokuArcs_wf : ArcsWF sudokuArcs := by
  intro a ha
  obtain ⟨x, y⟩ := a
  rw [mem_sudokuArcs] at ha
  obtain ⟨hx, hy⟩ := ha
  obtain ⟨hx1, hx2⟩ := mem_cells.mp hx
  have hyc : y ∈ cells := by
    have := mem_foldl_addUnique _ [] y |>.mp hy
    simp only [List.not_mem_nil, false_or, List.mem_append] at this
    rcases this with ((h | h) | h)
    · rw [mem_rowMates] at h
      exact mem_cells.mpr ⟨h.1 ▸ hx1, h.2.1⟩
    · rw [mem_colMates] at h
      exact mem_cells.mpr ⟨h.2.1, h.1 ▸ hx2⟩
    · rw [mem_boxMates] at h
      refine mem_cells.mpr ⟨?_, ?_⟩ <;> omega
  obtain ⟨hy1, hy2⟩ := mem_cells.mp hyc
  exact ⟨hx, hyc, (mem_get_neighbors hy1 hy2).mp hy⟩

theorem neighbor_mem_sudokuArcs {x y : Cell} (hx : x ∈ cells) (hy : y ∈ cells)
    (h : Neighbor x y) : (x, y) ∈ sudokuArcs := by
  obtain ⟨hy1, hy2⟩ := mem_cells.mp hy
  exact mem_sudokuArcs.mpr ⟨hx, (mem_get_neighbors hy1 hy2).mpr h⟩

set_option maxRecDepth 40000

theorem get_neighbors_length : ∀ c ∈ cells, (get_neighbors c).length = 20 := by
  decide

theorem cells_length : cells.length = 81 := by decide

theorem sudokuArcs_length_eq : sudokuArcs.length = 1620 := by
  unfold sudokuArcs
  rw [List.length_flatMap]
  have hmap : cells.map (List.length ∘ fun v => (get_neighbors v).map (fun n => (v, n))) =
      List.replicate 81 20 := by
    have h81 : (cells.map
        (List.length ∘ fun v => (get_neighbors v).map (fun n => (v, n)))).length = 81 := by
      rw [List.length_map, cells_length]
    rw [← h81]
    apply List.eq_replicate_of_mem
    intro m hm
    obtain ⟨c, hc, rfl⟩ := List.mem_map.mp hm
    simp only [Function.comp_apply, List.length_map]
    exact get_neighbors_length c hc
  rw [hmap, List.sum_const_nat]

/-! ## The `REVISE` contract -/

theorem reviseKeep_iff {dY : List Nat} {v : Nat} :
    reviseKeep dY v = true ↔ ∃ w ∈ dY, w ≠ v := by
  unfold reviseKeep
  simp [List.any_eq_true]

theorem mem_reviseDom {dom : Cell → List Nat} {x y : Cell} {v : Nat} :
    v ∈ reviseDom dom x y ↔ v ∈ dom x ∧ ∃ w ∈ dom y, w ≠ v := by
  unfold reviseDom
  rw [List.mem_filter, reviseKeep_iff]

theorem reviseDom_subset {dom : Cell → List Nat} {x y : Cell} {v : Nat}
    (h : v ∈ reviseDom dom x y) : v ∈ dom x :=
  (mem_reviseDom.mp h).1

theorem reviseRevised_iff {dom : Cell → List Nat} {x y : Cell} :
    reviseRevised dom x y = true ↔ reviseDom dom x y ≠ dom x := by
  unfold reviseRevised reviseDom
  rw [List.any_eq_true]
  constructor
  · rintro ⟨v, hv, hkeep⟩ heq
    rw [Bool.not_eq_true'] at hkeep
    have := List.filter_eq_self.mp heq v hv
    rw [this] at hkeep
    cases hkeep
  · intro hne
    by_contra hall
    push_neg at hall
    apply hne
    apply List.filter_eq_self.mpr
    intro v hv
    simpa using hall v hv

theorem not_mem_reviseDom_iff {dom : Cell → List Nat} {x y : Cell} {v : Nat}
    (hv : v ∈ dom x) : v ∉ reviseDom dom x y ↔ ∀ w ∈ dom y, w = v := by
  rw [mem_reviseDom]
  constructor
  · intro h w hw
    by_contra hne
    exact h ⟨hv, w, hw, hne⟩
  · rintro hall ⟨_, w, hw, hne⟩
    exact hne (hall w hw)

/-- A duplicate-free, non-empty list whose members all equal `v` is `[v]`. -/
theorem eq_singleton_of_forall_eq {l : List Nat} {v : Nat} (hne : l ≠ [])
    (hnd : l.Nodup) (hall : ∀ w ∈ l, w = v) : l = [v] := by
  match l, hne with
  | [w], _ =>
    rw [hall w (by simp)]
  | w1 :: w2 :: rest, _ =>
    exfalso
    have h1 : w1 = v := hall w1 (by simp)
    have h2 : w2 = v := hall w2 (by simp)
    have : w1 ∉ w2 :: rest := (List.nodup_cons.mp hnd).1
    rw [h1, ← h2] at this
    exact this (by simp [h2, h1])

/-- C4 (amended): `REVISE(x, y)` removes a value `v` from `Domain[x]` exactly
when `Domain[y]` contains no value different from `v`; for a *non-empty*
`Domain[y]` that is precisely `Domain[y] == {v}` (an empty `Domain[y]` also
removes every value); it reports a revision exactly when `Domain[x]`
changed, and it leaves `Domain[y]` untouched. -/
theorem revise_contract (dom : Cell → List Nat) (x y : Cell) (hxy : x ≠ y)
    (hnd : (dom y).Nodup) :
    (∀ v ∈ dom x, (v ∉ reviseDom dom x y ↔ ∀ w ∈ dom y, w = v)) ∧
    (dom y ≠ [] → ∀ v ∈ dom x, (v ∉ reviseDom dom x y ↔ dom y = [v])) ∧
    (reviseRevised dom x y = true ↔ reviseDom dom x y ≠ dom x) ∧
    updateDom dom x (reviseDom dom x y) y = dom y := by
  refine ⟨fun v hv => not_mem_reviseDom_iff hv, ?_, reviseRevised_iff, ?_⟩
  · intro hne v hv
    rw [not_mem_reviseDom_iff hv]
    constructor
    · intro hall
      exact eq_singleton_of_forall_eq hne hnd hall
    · intro heq w hw
      rw [heq] at hw
      simpa using hw
  · unfold updateDom
    rw [if_neg (fun h => hxy h.symm)]

theorem revise_contract_witness :
    ((0, 0) : Cell) ≠ (0, 1) ∧ (wDom4 (0, 1)).Nodup ∧
    ((∀ v ∈ wDom4 (0, 0), (v ∉ reviseDom wDom4 (0, 0) (0, 1) ↔ ∀ w ∈ wDom4 (0, 1), w = v)) ∧
      (wDom4 (0, 1) ≠ [] → ∀ v ∈ wDom4 (0, 0),
        (v ∉ reviseDom wDom4 (0, 0) (0, 1) ↔ wDom4 (0, 1) = [v])) ∧
      (reviseRevised wDom4 (0, 0) (0, 1) = true ↔
        reviseDom wDom4 (0, 0) (0, 1) ≠ wDom4 (0, 0)) ∧
      updateDom wDom4 (0, 0) (reviseDom wDom4 (0, 0) (0, 1)) (0, 1) = wDom4 (0, 1)) :=
  ⟨by decide, by decide, revise_contract wDom4 (0, 0) (0, 1) (by decide) (by decide)⟩

/-- C4 counterexample: with `Domain[(0,1)]` empty — a state the engine can
reach after a failed inference, given the shared-snapshot restore —
`REVISE((0,0), (0,1))` removes the value `1` even though
`Domain[(0,1)] ≠ {1}`, contradicting "removes `v` precisely when
`Domain[y] == {v}`". -/
theorem revise_empty_neighbor_cex :
    1 ∈ emptyNbrDom (0, 0) ∧ 1 ∉ reviseDom emptyNbrDom (0, 0) (0, 1) ∧
    emptyNbrDom (0, 1) ≠ [1] ∧ Neighbor (0, 0) (0, 1) ∧
    reviseRevised emptyNbrDom (0, 0) (0, 1) = true := by
  exact ⟨by decide, by decide, by decide, by decide, by decide⟩

/-! ## The validity check -/

theorem validSeen_iff :
    ∀ (l seen : List Nat), validSeen seen l = true ↔
      ((l.filter (fun v => v ≠ 0)).Nodup ∧ ∀ x ∈ l, x ≠ 0 → x ∉ seen) := by
  intro l
  induction l with
  | nil => simp [validSeen]
  | cons c rest ih =>
    intro seen
    by_cases hc : c = 0
    · subst hc
      rw [validSeen, if_pos rfl, ih]
      simp [List.filter_cons, List.forall_mem_cons]
    · by_cases hseen : c ∈ seen
      · rw [validSeen, if_neg hc, if_pos hseen]
        simp only [Bool.false_eq_true, false_iff, not_and]
        intro _ hall
        exact hall c (by simp) hc hseen
      · rw [validSeen, if_neg hc, if_neg hseen, ih]
        have hfc : (c :: rest).filter (fun v => v ≠ 0) =
            c :: rest.filter (fun v => v ≠ 0) := by
          simp [List.filter_cons, hc]
        rw [hfc, List.nodup_cons]
        constructor
        · rintro ⟨hnd, hall⟩
          refine ⟨⟨fun hcf => ?_, hnd⟩, ?_⟩
          · have hm := List.mem_filter.mp hcf
            exact (hall c hm.1 hc) (List.mem_cons_self c seen)
          · intro x hx hx0
            rcases List.mem_cons.mp hx with rfl | hx'
            · exact hseen
            · intro hin
              exact (hall x hx' hx0) (List.mem_cons_of_mem c hin)
        · rintro ⟨⟨hcf, hnd⟩, hall⟩
          refine ⟨hnd, fun x hx hx0 hin => ?_⟩
          rcases List.mem_cons.mp hin with rfl | hin'
          · exact hcf (List.mem_filter.mpr ⟨hx, by simp [hx0]⟩)
          · exact (hall x (List.mem_cons_of_mem c hx) hx0) hin'

theorem valid_iff (area : List (List Nat)) :
    valid area = true ↔ ∀ u ∈ area, (u.filter (fun v => v ≠ 0)).Nodup := by
  unfold valid
  rw [List.all_eq_true]
  constructor
  · intro h u hu
    exact ((validSeen_iff u []).mp (h u hu)).1
  · intro h u hu
    exact (validSeen_iff u []).mpr ⟨h u hu, by simp⟩

/-- C8: a board with a duplicated non-zero value in some row, column or
region is rejected by `solve` before any solving attempt, with the board
returned exactly as given (no mutation). -/
theorem solve_rejects_invalid (b : Board) (bf af : Nat)
    (h : ∃ u ∈ get_rows b ++ get_columns b ++ get_regions b,
      ¬ (u.filter (fun v => v ≠ 0)).Nodup) :
    solveFuel bf af b = some (.invalidInput, b) := by
  have hv : is_valid b = false := by
    cases hiv : is_valid b
    · rfl
    · exfalso
      obtain ⟨u, hu, hnd⟩ := h
      unfold is_valid at hiv
      rw [Bool.and_eq_true, Bool.and_eq_true] at hiv
      obtain ⟨⟨hr, hc⟩, hreg⟩ := hiv
      rw [List.mem_append, List.mem_append] at hu
      rcases hu with (hu | hu) | hu
      · exact hnd ((valid_iff _).mp hr u hu)
      · exact hnd ((valid_iff _).mp hc u hu)
      · exact hnd ((valid_iff _).mp hreg u hu)
  unfold solveFuel
  rw [hv]
  simp

/-- Witness for `solve_rejects_invalid`: the spec's example board carrying
two `5`s in the same row. -/
theorem solve_rejects_invalid_witness :
    (∃ u ∈ get_rows twoFivesBoard ++ get_columns twoFivesBoard ++ get_regions twoFivesBoard,
      ¬ (u.filter (fun v => v ≠ 0)).Nodup) ∧
    solveFuel 9 9 twoFivesBoard = some (.invalidInput, twoFivesBoard) :=
  ⟨⟨[5, 0, 0, 0, 5, 0, 0, 0, 0], by decide, by decide⟩,
    solve_rejects_invalid twoFivesBoard 9 9
      ⟨[5, 0, 0, 0, 5, 0, 0, 0, 0], by decide, by decide⟩⟩

/-! ## The `MRV` heuristic -/

theorem mrvLoop_go (dom : Cell → List Nat) (asn : List (Cell × List Nat)) :
    ∀ (l : List Cell) (s0 : Nat) (m0 : Cell),
      (mrvLoop dom asn l (some (s0, m0)) = some (s0, m0) ∧
        ∀ v ∈ l.filter (fun v => asnFind asn v = none), s0 ≤ (dom v).length) ∨
      (∃ m pre post, mrvLoop dom asn l (some (s0, m0)) = some ((dom m).length, m) ∧
        l.filter (fun v => asnFind asn v = none) = pre ++ m :: post ∧
        (dom m).length < s0 ∧
        (∀ p ∈ pre, (dom m).length < (dom p).length) ∧
        (∀ v ∈ l.filter (fun v => asnFind asn v = none),
          (dom m).length ≤ (dom v).length)) := by
  intro l
  induction l with
  | nil => intro s0 m0; left; exact ⟨rfl, by simp⟩
  | cons v rest ih =>
    intro s0 m0
    by_cases h : asnFind asn v = none
    · have hfil : (v :: rest).filter (fun v => asnFind asn v = none) =
          v :: rest.filter (fun v => asnFind asn v = none) := by
        simp [List.filter_cons, h]
      have hstep : mrvLoop dom asn (v :: rest) (some (s0, m0)) =
          if (dom v).length < s0 then mrvLoop dom asn rest (some ((dom v).length, v))
          else mrvLoop dom asn rest (some (s0, m0)) := by
        rw [mrvLoop, if_neg (fun hne => hne h)]
      by_cases hlt : (dom v).length < s0
      · rw [if_pos hlt] at hstep
        rcases ih (dom v).length v with ⟨hres, hmin⟩ | ⟨m, pre, post, hres, hfil', hlt', hpre, hmin⟩
        · right
          refine ⟨v, [], rest.filter (fun v => asnFind asn v = none),
            by rw [hstep, hres], by rw [hfil, List.nil_append], hlt, by simp, ?_⟩
          rw [hfil]
          intro w hw
          rcases List.mem_cons.mp hw with rfl | hw'
          · exact le_refl _
          · exact hmin w hw'
        · right
          refine ⟨m, v :: pre, post, by rw [hstep, hres], ?_, lt_trans hlt' hlt, ?_, ?_⟩
          · rw [hfil, hfil']; rfl
          · intro p hp
            rcases List.mem_cons.mp hp with rfl | hp'
            · exact hlt'
            · exact hpre p hp'
          · rw [hfil]
            intro w hw
            rcases List.mem_cons.mp hw with rfl | hw'
            · exact le_of_lt hlt'
            · exact hmin w hw'
      · rw [if_neg hlt] at hstep
        rcases ih s0 m0 with ⟨hres, hmin⟩ | ⟨m, pre, post, hres, hfil', hlt', hpre, hmin⟩
        · left
          refine ⟨by rw [hstep, hres], ?_⟩
          rw [hfil]
          intro w hw
          rcases List.mem_cons.mp hw with rfl | hw'
          · omega
          · exact hmin w hw'
        · right
          refine ⟨m, v :: pre, post, by rw [hstep, hres], ?_, hlt', ?_, ?_⟩
          · rw [hfil, hfil']; rfl
          · intro p hp
            rcases List.mem_cons.mp hp with rfl | hp'
            · omega
            · exact hpre p hp'
          · rw [hfil]
            intro w hw
            rcases List.mem_cons.mp hw with rfl | hw'
            · omega
            · exact hmin w hw'
    · have hfil : (v :: rest).filter (fun v => asnFind asn v = none) =
          rest.filter (fun v => asnFind asn v = none) := by
        simp [List.filter_cons, h]
      have hstep : mrvLoop dom asn (v :: rest) (some (s0, m0)) =
          mrvLoop dom asn rest (some (s0, m0)) := by
        rw [mrvLoop, if_pos h]
      rw [hstep, hfil]
      exact ih s0 m0

theorem mrvLoop_start (dom : Cell → List Nat) (asn : List (Cell × List Nat)) :
    ∀ l : List Cell,
      (l.filter (fun v => asnFind asn v = none) = [] ∧ mrvLoop dom asn l none = none) ∨
      (∃ m pre post, mrvLoop dom asn l none = some ((dom m).length, m) ∧
        l.filter (fun v => asnFind asn v = none) = pre ++ m :: post ∧
        (∀ p ∈ pre, (dom m).length < (dom p).length) ∧
        (∀ v ∈ l.filter (fun v => asnFind asn v = none),
          (dom m).length ≤ (dom v).length)) := by
  intro l
  induction l with
  | nil => left; exact ⟨rfl, rfl⟩
  | cons v rest ih =>
    by_cases h : asnFind asn v = none
    · have hfil : (v :: rest).filter (fun v => asnFind asn v = none) =
          v :: rest.filter (fun v => asnFind asn v = none) := by
        simp [List.filter_cons, h]
      have hstep : mrvLoop dom asn (v :: rest) none =
          mrvLoop dom asn rest (some ((dom v).length, v)) := by
        rw [mrvLoop, if_neg (fun hne => hne h)]
      rcases mrvLoop_go dom asn rest (dom v).length v with
        ⟨hres, hmin⟩ | ⟨m, pre, post, hres, hfil', hlt', hpre, hmin⟩
      · right
        refine ⟨v, [], rest.filter (fun v => asnFind asn v = none),
          by rw [hstep, hres], by rw [hfil, List.nil_append], by simp, ?_⟩
        rw [hfil]
        intro w hw
        rcases List.mem_cons.mp hw with rfl | hw'
        · exact le_refl _
        · exact hmin w hw'
      · right
        refine ⟨m, v :: pre, post, by rw [hstep, hres], ?_, ?_, ?_⟩
        · rw [hfil, hfil']; rfl
        · intro p hp
          rcases List.mem_cons.mp hp with rfl | hp'
          · exact hlt'
          · exact hpre p hp'
        · rw [hfil]
          intro w hw
          rcases List.mem_cons.mp hw with rfl | hw'
          · exact le_of_lt hlt'
          · exact hmin w hw'
    · have hfil : (v :: rest).filter (fun v => asnFind asn v = none) =
          rest.filter (fun v => asnFind asn v = none) := by
        simp [List.filter_cons, h]
      have hstep : mrvLoop dom asn (v :: rest) none = mrvLoop dom asn rest none := by
        rw [mrvLoop, if_pos h]
      rw [hstep, hfil]
      exact ih

/-- The full characterization of a successful `MRV` selection. -/
theorem mrv_spec (dom : Cell → List Nat) (asn : List (Cell × List Nat)) (m : Cell)
    (hm : MRV dom asn = some m) :
    m ∈ cells ∧ asnFind asn m = none ∧
    (∀ v ∈ cells, asnFind asn v = none → (dom m).length ≤ (dom v).length) ∧
    ∃ pre post, cells.filter (fun v => asnFind asn v = none) = pre ++ m :: post ∧
      ∀ p ∈ pre, (dom m).length < (dom p).length := by
  rcases mrvLoop_start dom asn cells with ⟨_, hres⟩ | ⟨m', pre, post, hres, hfil, hpre, hmin⟩
  · rw [MRV, hres] at hm
    cases hm
  · rw [MRV, hres] at hm
    have hm2 : some m' = some m := hm
    have hm3 : m' = m := Option.some.inj hm2
    subst hm3
    have hmem : m' ∈ cells.filter (fun v => asnFind asn v = none) := by
      rw [hfil]
      exact List.mem_append.mpr (Or.inr (List.mem_cons_self _ _))
    have hmem' := List.mem_filter.mp hmem
    refine ⟨hmem'.1, by simpa using hmem'.2, ?_, pre, post, hfil, hpre⟩
    intro v hv hun
    exact hmin v (List.mem_filter.mpr ⟨hv, by simp [hun]⟩)

/-- C6: for a non-complete assignment, `MRV` returns an unassigned variable
of minimal current domain size, and every unassigned variable listed before
it in the enumeration order has a strictly larger domain — the first
minimal variable encountered wins, deterministically. -/
theorem mrv_selects_first_minimum (dom : Cell → List Nat)
    (asn : List (Cell × List Nat)) (h : ∃ c ∈ cells, asnFind asn c = none) :
    ∃ m, MRV dom asn = some m ∧ m ∈ cells ∧ asnFind asn m = none ∧
      (∀ v ∈ cells, asnFind asn v = none → (dom m).length ≤ (dom v).length) ∧
      ∃ pre post, cells.filter (fun v => asnFind asn v = none) = pre ++ m :: post ∧
        ∀ p ∈ pre, (dom m).length < (dom p).length := by
  rcases mrvLoop_start dom asn cells with ⟨hfil, _⟩ | ⟨m, pre, post, hres, hfil, hpre, hmin⟩
  · exfalso
    obtain ⟨c, hc, hun⟩ := h
    have : c ∈ cells.filter (fun v => asnFind asn v = none) :=
      List.mem_filter.mpr ⟨hc, by simp [hun]⟩
    rw [hfil] at this
    cases this
  · have hm : MRV dom asn = some m := by rw [MRV, hres]; rfl
    obtain ⟨h1, h2, h3, h4⟩ := mrv_spec dom asn m hm
    exact ⟨m, hm, h1, h2, h3, h4⟩

/-- Witness for `mrv_selects_first_minimum`: the empty assignment on the
`unsatBoard` domains, where every cell is unassigned and the filled cells
tie at domain size one, so the first filled cell in enumeration order —
`(1, 0)`, column-major — wins. -/
theorem mrv_selects_first_minimum_witness :
    (∃ c ∈ cells, asnFind [] c = none) ∧
    (∃ m, MRV (initDomains unsatBoard) [] = some m ∧ m ∈ cells ∧
      asnFind [] m = none ∧
      (∀ v ∈ cells, asnFind [] v = none →
        ((initDomains unsatBoard) m).length ≤ ((initDomains unsatBoard) v).length) ∧
      ∃ pre post, cells.filter (fun v => asnFind [] v = none) = pre ++ m :: post ∧
        ∀ p ∈ pre, ((initDomains unsatBoard) m).length < ((initDomains unsatBoard) p).length) :=
  ⟨⟨(0, 0), by decide, rfl⟩,
    mrv_selects_first_minimum (initDomains unsatBoard) [] ⟨(0, 0), by decide, rfl⟩⟩

/-! ## The `LSV` heuristic -/

/-- C7: value ordering counts, for each candidate value, the occurrences
equal to it across the *entire* assignment (`countAssign`), and returns the
selected variable's domain values rearranged (a permutation) so that counts
ascend and equal-count values keep their natural ascending order. -/
theorem lsv_sorted_by_global_count (dom : Cell → List Nat)
    (asn : List (Cell × List Nat)) (var : Cell) :
    (LSV dom asn var).Perm (dom var) ∧
    (LSV dom asn var).Pairwise (fun a b =>
      countAssign asn a < countAssign asn b ∨
        (countAssign asn a = countAssign asn b ∧ a ≤ b)) := by
  constructor
  · exact List.perm_insertionSort (lsvRel asn) (dom var)
  · exact List.sorted_insertionSort (lsvRel asn) (dom var)

/-! ## The variable enumeration order -/

theorem cells_lex_pairwise :
    List.Pairwise (fun a b : Cell => a.2 < b.2 ∨ (a.2 = b.2 ∧ a.1 < b.1)) cells := by
  decide

/-- C10: `Sudoku.cells` enumerates the 81 coordinates column-major — the row
index varies fastest inside each column, entry `k` being
`(k mod 9, k div 9)` — and consequently an `MRV` tie is resolved to the
candidate with the smallest column index and, within that column, the
smallest row index. -/
theorem cells_enumeration_column_major :
    cells =
    [(0, 0), (1, 0), (2, 0), (3, 0), (4, 0), (5, 0), (6, 0), (7, 0), (8, 0), (0, 1), (1, 1),
     (2, 1), (3, 1), (4, 1), (5, 1), (6, 1), (7, 1), (8, 1), (0, 2), (1, 2), (2, 2), (3, 2),
     (4, 2), (5, 2), (6, 2), (7, 2), (8, 2), (0, 3), (1, 3), (2, 3), (3, 3), (4, 3), (5, 3),
     (6, 3), (7, 3), (8, 3), (0, 4), (1, 4), (2, 4), (3, 4), (4, 4), (5, 4), (6, 4), (7, 4),
     (8, 4), (0, 5), (1, 5), (2, 5), (3, 5), (4, 5), (5, 5), (6, 5), (7, 5), (8, 5), (0, 6),
     (1, 6), (2, 6), (3, 6), (4, 6), (5, 6), (6, 6), (7, 6), (8, 6), (0, 7), (1, 7), (2, 7),
     (3, 7), (4, 7), (5, 7), (6, 7), (7, 7), (8, 7), (0, 8), (1, 8), (2, 8), (3, 8), (4, 8),
     (5, 8), (6, 8), (7, 8), (8, 8)] ∧
    (∀ k, k < 81 → cells.getD k (0, 0) = (k % 9, k / 9)) ∧
    (∀ (dom : Cell → List Nat) (asn : List (Cell × List Nat)) (m v : Cell),
      MRV dom asn = some m → v ∈ cells → asnFind asn v = none →
      (dom v).length = (dom m).length →
      (m.2 < v.2 ∨ (m.2 = v.2 ∧ m.1 ≤ v.1))) := by
  refine ⟨by decide, by decide, ?_⟩
  intro dom asn m v hm hv hun hsz
  obtain ⟨_, _, _, pre, post, hfil, hpre⟩ := mrv_spec dom asn m hm
  have hvf : v ∈ cells.filter (fun v => asnFind asn v = none) :=
    List.mem_filter.mpr ⟨hv, by simp [hun]⟩
  have hsub : (cells.filter (fun v => asnFind asn v = none)).Sublist cells :=
    List.filter_sublist cells
  have hpw := cells_lex_pairwise.sublist hsub
  rw [hfil] at hpw hvf
  rcases List.mem_append.mp hvf with hvpre | hvtail
  · exact absurd hsz (by have := hpre v hvpre; omega)
  · rcases List.mem_cons.mp hvtail with rfl | hvpost
    · right; exact ⟨rfl, le_refl _⟩
    · have hrel := List.rel_of_pairwise_cons (List.pairwise_append.mp hpw).2.1 hvpost
      rcases hrel with h | ⟨h1, h2⟩
      · exact Or.inl h
      · exact Or.inr ⟨h1, le_of_lt h2⟩

/-- Witness for `cells_enumeration_column_major`: entry 10 of the
enumeration is `(1, 1)`, and the `MRV` tie between the two singleton cells
`(1, 0)` and `(0, 1)` of `unsatBoard` under the empty assignment goes to
`(1, 0)`, the smaller column. -/
theorem cells_enumeration_column_major_witness :
    (10 < 81 ∧ cells.getD 10 (0, 0) = (10 % 9, 10 / 9)) ∧
    (MRV (initDomains unsatBoard) [] = some (1, 0) ∧ ((0, 1) : Cell) ∈ cells ∧
      asnFind [] (0, 1) = none ∧
      (initDomains unsatBoard (0, 1)).length = (initDomains unsatBoard (1, 0)).length ∧
      (((1, 0) : Cell).2 < ((0, 1) : Cell).2 ∨
        (((1, 0) : Cell).2 = ((0, 1) : Cell).2 ∧ ((1, 0) : Cell).1 ≤ ((0, 1) : Cell).1))) :=
  ⟨⟨by decide, cells_enumeration_column_major.2.1 10 (by decide)⟩,
    by decide, by decide, by decide, by decide,
    cells_enumeration_column_major.2.2 (initDomains unsatBoard) [] (1, 0) (0, 1)
      (by decide) (by decide) (by decide) (by decide)⟩

/-! ## `AC3`: the worklist invariant -/

theorem get_neighbors_mem_cells {x z : Cell} (hx : x ∈ cells)
    (hz : z ∈ get_neighbors x) : z ∈ cells ∧ Neighbor x z := by
  obtain ⟨hx1, hx2⟩ := mem_cells.mp hx
  have hzc : z ∈ cells := by
    have hm := (mem_foldl_addUnique _ [] z).mp hz
    simp only [List.not_mem_nil, false_or, List.mem_append] at hm
    rcases hm with (h | h) | h
    · rw [mem_rowMates] at h
      exact mem_cells.mpr ⟨h.1 ▸ hx1, h.2.1⟩
    · rw [mem_colMates] at h
      exact mem_cells.mpr ⟨h.2.1, h.1 ▸ hx2⟩
    · rw [mem_boxMates] at h
      refine mem_cells.mpr ⟨?_, ?_⟩ <;> omega
  obtain ⟨hz1, hz2⟩ := mem_cells.mp hzc
  exact ⟨hzc, (mem_get_neighbors hz1 hz2).mp hz⟩

theorem mem_enqueued {x y u w : Cell} :
    (u, w) ∈ ((get_neighbors x).filter (fun z => z ≠ y)).map (fun z => (z, x)) ↔
      w = x ∧ u ∈ get_neighbors x ∧ u ≠ y := by
  simp only [List.mem_map, List.mem_filter, decide_eq_true_eq, Prod.mk.injEq]
  constructor
  · rintro ⟨z, ⟨hz, hzy⟩, rfl, rfl⟩
    exact ⟨rfl, hz, hzy⟩
  · rintro ⟨rfl, hu, huy⟩
    exact ⟨u, ⟨hu, huy⟩, rfl, rfl⟩

theorem ac3Fuel_true_consistent :
    ∀ (f : Nat) (q : List (Cell × Cell)) (dom dom' : Cell → List Nat),
      ArcsWF q → QueueInv q dom → ac3Fuel f q dom = some (true, dom') →
      ArcConsistent dom' := by
  intro f
  induction f with
  | zero =>
    intro q dom dom' hwf hinv hrun
    cases q with
    | nil =>
      rw [ac3Fuel] at hrun
      obtain ⟨-, rfl⟩ : true = true ∧ dom = dom' := by
        have := Option.some.inj hrun
        exact ⟨congrArg Prod.fst this, congrArg Prod.snd this⟩
      intro x hx y hy hn
      exact hinv x hx y hy hn (List.not_mem_nil _)
    | cons a rest =>
      rw [ac3Fuel] at hrun
      cases hrun
  | succ f ih =>
    intro q dom dom' hwf hinv hrun
    cases q with
    | nil =>
      rw [ac3Fuel] at hrun
      obtain ⟨-, rfl⟩ : true = true ∧ dom = dom' := by
        have := Option.some.inj hrun
        exact ⟨congrArg Prod.fst this, congrArg Prod.snd this⟩
      intro x hx y hy hn
      exact hinv x hx y hy hn (List.not_mem_nil _)
    | cons a rest =>
      obtain ⟨x, y⟩ := a
      obtain ⟨hxc, hyc, hnxy⟩ := hwf (x, y) (List.mem_cons_self _ _)
      have hxy : x ≠ y := neighbor_ne hnxy
      have hwfrest : ArcsWF rest := fun a ha => hwf a (List.mem_cons_of_mem _ ha)
      rw [ac3Fuel] at hrun
      by_cases hch : reviseDom dom x y = dom x
      · rw [if_pos hch] at hrun
        refine ih rest dom dom' hwfrest ?_ hrun
        intro u hu w hw hn hnin
        by_cases heq : (u, w) = (x, y)
        · obtain ⟨rfl, rfl⟩ := Prod.mk.injEq .. ▸ heq
          intro v hv
          have hkeep := List.filter_eq_self.mp hch v hv
          exact reviseKeep_iff.mp hkeep
        · exact hinv u hu w hw hn (by
            intro hmem
            rcases List.mem_cons.mp hmem with h | h
            · exact heq h
            · exact hnin h)
      · rw [if_neg hch] at hrun
        by_cases hemp : reviseDom dom x y = []
        · rw [if_pos hemp] at hrun
          have : False := by
            have := Option.some.inj hrun
            have hff : false = true := congrArg Prod.fst this
            cases hff
          exact this.elim
        · rw [if_neg hemp] at hrun
          refine ih _ _ dom' ?_ ?_ hrun
          · intro a ha
            rcases List.mem_append.mp ha with ha | ha
            · exact hwfrest a ha
            · obtain ⟨u, w⟩ := a
              obtain ⟨rfl, hu, -⟩ := mem_enqueued.mp ha
              obtain ⟨huc, hnu⟩ := get_neighbors_mem_cells hxc hu
              exact ⟨huc, hxc, neighbor_symm hnu⟩
          · intro u hu w hw hn hnin
            have hnin2 := fun h => hnin (List.mem_append.mpr (Or.inl h))
            have hnin3 := fun h => hnin (List.mem_append.mpr (Or.inr h))
            by_cases hwx : w = x
            · subst hwx
              have humem : u ∈ get_neighbors w := by
                obtain ⟨hu1, hu2⟩ := mem_cells.mp hu
                exact (mem_get_neighbors hu1 hu2).mpr (neighbor_symm hn)
              have huy : u = y := by
                by_contra hne
                exact hnin3 (mem_enqueued.mpr ⟨rfl, humem, hne⟩)
              subst huy
              have hnq : (u, w) ∉ (w, u) :: rest := by
                intro hmem
                rcases List.mem_cons.mp hmem with h | h
                · exact (neighbor_ne hn) (congrArg Prod.fst h)
                · exact hnin2 h
              have h0 := hinv u hu w hw hn hnq
              intro v hv
              rw [updateDom, if_neg (fun h => (neighbor_ne hn) h)] at hv
              obtain ⟨w', hw', hne'⟩ := h0 v hv
              by_cases hmem : w' ∈ reviseDom dom w u
              · refine ⟨w', ?_, hne'⟩
                rw [updateDom, if_pos rfl]
                exact hmem
              · exfalso
                have hall := (not_mem_reviseDom_iff hw').mp hmem
                exact hne' (hall v hv).symm
            · by_cases hux : u = x
              · subst hux
                intro v hv
                rw [updateDom, if_pos rfl] at hv
                by_cases hwy : w = y
                · subst hwy
                  obtain ⟨-, w', hw', hne'⟩ := mem_reviseDom.mp hv
                  refine ⟨w', ?_, hne'⟩
                  rw [updateDom, if_neg (fun h => hxy h.symm)]
                  exact hw'
                · have hnq : (u, w) ∉ (u, y) :: rest := by
                    intro hmem
                    rcases List.mem_cons.mp hmem with h | h
                    · exact hwy (congrArg Prod.snd h)
                    · exact hnin2 h
                  have h0 := hinv u hu w hw hn hnq
                  obtain ⟨w', hw', hne'⟩ := h0 v (reviseDom_subset hv)
                  refine ⟨w', ?_, hne'⟩
                  rw [updateDom, if_neg (fun h => hwx h)]
                  exact hw'
              · have hnq : (u, w) ∉ (x, y) :: rest := by
                  intro hmem
                  rcases List.mem_cons.mp hmem with h | h
                  · exact hux (congrArg Prod.fst h)
                  · exact hnin2 h
                have h0 := hinv u hu w hw hn hnq
                intro v hv
                rw [updateDom, if_neg (fun h => hux h)] at hv
                obtain ⟨w', hw', hne'⟩ := h0 v hv
                refine ⟨w', ?_, hne'⟩
                rw [updateDom, if_neg (fun h => hwx h)]
                exact hw'

theorem ac3Fuel_preserves_solution :
    ∀ (f : Nat) (q : List (Cell × Cell)) (dom : Cell → List Nat) (res : Bool)
      (dom' : Cell → List Nat) (s : Cell → Nat),
      ArcsWF q → NeighborDistinct s → SolutionIn s dom →
      ac3Fuel f q dom = some (res, dom') → SolutionIn s dom' := by
  have hstep : ∀ (q : List (Cell × Cell)) (dom : Cell → List Nat) (s : Cell → Nat)
      (x y : Cell), ArcsWF ((x, y) :: q) → NeighborDistinct s → SolutionIn s dom →
      SolutionIn s (updateDom dom x (reviseDom dom x y)) := by
    intro q dom s x y hwf hdist hin c hc
    obtain ⟨hxc, hyc, hnxy⟩ := hwf (x, y) (List.mem_cons_self _ _)
    rw [updateDom]
    by_cases hcx : c = x
    · rw [if_pos hcx]
      subst hcx
      refine mem_reviseDom.mpr ⟨hin c hc, s y, hin y hyc, ?_⟩
      exact Ne.symm (hdist c hc y hyc hnxy)
    · rw [if_neg hcx]
      exact hin c hc
  intro f
  induction f with
  | zero =>
    intro q dom res dom' s hwf hdist hin hrun
    cases q with
    | nil =>
      rw [ac3Fuel] at hrun
      obtain rfl : dom = dom' := congrArg Prod.snd (Option.some.inj hrun)
      exact hin
    | cons a rest =>
      rw [ac3Fuel] at hrun
      cases hrun
  | succ f ih =>
    intro q dom res dom' s hwf hdist hin hrun
    cases q with
    | nil =>
      rw [ac3Fuel] at hrun
      obtain rfl : dom = dom' := congrArg Prod.snd (Option.some.inj hrun)
      exact hin
    | cons a rest =>
      obtain ⟨x, y⟩ := a
      have hwfrest : ArcsWF rest := fun a ha => hwf a (List.mem_cons_of_mem _ ha)
      rw [ac3Fuel] at hrun
      by_cases hch : reviseDom dom x y = dom x
      · rw [if_pos hch] at hrun
        exact ih rest dom res dom' s hwfrest hdist hin hrun
      · rw [if_neg hch] at hrun
        by_cases hemp : reviseDom dom x y = []
        · rw [if_pos hemp] at hrun
          obtain rfl : updateDom dom x (reviseDom dom x y) = dom' :=
            congrArg Prod.snd (Option.some.inj hrun)
          exact hstep rest dom s x y hwf hdist hin
        · rw [if_neg hemp] at hrun
          refine ih _ _ res dom' s ?_ hdist (hstep rest dom s x y hwf hdist hin) hrun
          intro a ha
          rcases List.mem_append.mp ha with ha | ha
          · exact hwfrest a ha
          · obtain ⟨u, w⟩ := a
            obtain ⟨rfl, hu, -⟩ := mem_enqueued.mp ha
            obtain ⟨hxc, -, -⟩ := hwf (w, y) (List.mem_cons_self _ _)
            obtain ⟨huc, hnu⟩ := get_neighbors_mem_cells hxc hu
            exact ⟨huc, hxc, neighbor_symm hnu⟩

/-- C3 (amended): whatever `AC3` runs on, it never removes a value that
belongs to a complete rule-valid solution compatible with the starting
domains; and whenever it returns `true`, every remaining value of every
variable has a supporting value in each neighbor's domain.  (As stated for
*any* board the claim fails: a failing run — see
`ac3_failure_not_consistent_cex` — stops with an empty domain whose
neighbors keep unsupported values.) -/
theorem ac3_sound (f : Nat) (q : List (Cell × Cell)) (dom dom' : Cell → List Nat)
    (r : Bool) (hq : ArcsWF q) (hmiss : QueueInv q dom)
    (hrun : ac3Fuel f q dom = some (r, dom')) :
    (r = true → ArcConsistent dom') ∧
    (∀ s, NeighborDistinct s → SolutionIn s dom → SolutionIn s dom') := by
  constructor
  · rintro rfl
    exact ac3Fuel_true_consistent f q dom dom' hq hmiss hrun
  · intro s h1 h2
    exact ac3Fuel_preserves_solution f q dom r dom' s hq h1 h2 hrun

/-- Witness for `ac3_sound` on the two-value domain state with an empty
worklist. -/
theorem ac3_sound_witness :
    ArcsWF ([] : List (Cell × Cell)) ∧ QueueInv [] wDom3 ∧
    ac3Fuel 1 [] wDom3 = some (true, wDom3) ∧
    ((true = true → ArcConsistent wDom3) ∧
      (∀ s, NeighborDistinct s → SolutionIn s wDom3 → SolutionIn s wDom3)) :=
  ⟨by decide, by decide, rfl,
    ac3_sound 1 [] wDom3 wDom3 true (by decide) (by decide) rfl⟩

/-- C3 counterexample: on `unsatBoard` — a structurally valid board — the
initial `AC3` pass returns `false`, leaving the value `1` in the domain of
`(0, 1)` while its neighbor `(0, 0)` has an empty domain, so "after AC-3
every remaining domain value is individually consistent with all the
variable's neighbors' domains" fails for this board. -/
theorem ac3_failure_not_consistent_cex :
    is_valid unsatBoard = true ∧ unsatRunFlag = some false ∧
    1 ∈ unsatRunDom (0, 1) ∧ unsatRunDom (0, 0) = [] ∧
    ((0, 1) : Cell) ∈ cells ∧ ((0, 0) : Cell) ∈ cells ∧ Neighbor (0, 1) (0, 0) ∧
    ¬ ArcConsistent unsatRunDom := by
  have hemp : unsatRunDom (0, 0) = [] := by decide
  have hone : 1 ∈ unsatRunDom (0, 1) := by decide
  refine ⟨by decide, by decide, hone, hemp, by decide, by decide, by decide, ?_⟩
  intro h
  obtain ⟨w, hw, -⟩ := h (0, 1) (by decide) (0, 0) (by decide) (by decide) 1 hone
  rw [hemp] at hw
  exact absurd hw (List.not_mem_nil w)

/-- C5: the arc list seeds the worklist with all 1620 arcs, none of them a
self-arc; one loop step pops the front arc `(x, y)` and (i) just drops it
when `REVISE` changed nothing, (ii) stops with `false` when the revised
domain emptied, (iii) otherwise appends `(z, x)` for every neighbor
`z ≠ y` of `x` to the back of the queue; and a run that drains the
worklist returns `true` with the surviving domains arc-consistent. -/
theorem ac3_fifo_spec :
    sudokuArcs.length = 1620 ∧
    (∀ a ∈ sudokuArcs, a.1 ≠ a.2) ∧
    (∀ (f : Nat) (x y : Cell) (rest : List (Cell × Cell)) (dom : Cell → List Nat),
      reviseDom dom x y = dom x →
      ac3Fuel (f + 1) ((x, y) :: rest) dom = ac3Fuel f rest dom) ∧
    (∀ (f : Nat) (x y : Cell) (rest : List (Cell × Cell)) (dom : Cell → List Nat),
      reviseDom dom x y ≠ dom x → reviseDom dom x y = [] →
      ac3Fuel (f + 1) ((x, y) :: rest) dom =
        some (false, updateDom dom x (reviseDom dom x y))) ∧
    (∀ (f : Nat) (x y : Cell) (rest : List (Cell × Cell)) (dom : Cell → List Nat),
      reviseDom dom x y ≠ dom x → reviseDom dom x y ≠ [] →
      ac3Fuel (f + 1) ((x, y) :: rest) dom =
        ac3Fuel f (rest ++ ((get_neighbors x).filter (fun z => z ≠ y)).map (fun z => (z, x)))
          (updateDom dom x (reviseDom dom x y))) ∧
    (∀ (f : Nat) (dom dom' : Cell → List Nat),
      ac3Fuel f sudokuArcs dom = some (true, dom') → ArcConsistent dom') := by
  refine ⟨sudokuArcs_length_eq, ?_, ?_, ?_, ?_, ?_⟩
  · intro a ha
    exact neighbor_ne (sudokuArcs_wf a ha).2.2
  · intro f x y rest dom hch
    rw [ac3Fuel, if_pos hch]
  · intro f x y rest dom hch hemp
    rw [ac3Fuel, if_neg hch, if_pos hemp]
  · intro f x y rest dom hch hemp
    rw [ac3Fuel, if_neg hch, if_neg hemp]
  · intro f dom dom' hrun
    refine ac3Fuel_true_consistent f sudokuArcs dom dom' sudokuArcs_wf ?_ hrun
    intro x hx y hy hn hnin
    exact absurd (neighbor_mem_sudokuArcs hx hy hn) hnin

/-- Witness for `ac3_fifo_spec`: a no-change step on the two-value state,
and the full drained run on the already-solved board, whose surviving
domains are arc-consistent. -/
theorem ac3_fifo_spec_witness :
    (reviseDom wDom3 (0, 0) (0, 1) = wDom3 (0, 0) ∧
      ac3Fuel 1 [((0, 0), (0, 1))] wDom3 = ac3Fuel 0 [] wDom3) ∧
    (ac3Fuel 1620 sudokuArcs (initDomains solvedBoard) =
        some (true, initDomains solvedBoard) ∧
      ArcConsistent (initDomains solvedBoard)) :=
  ⟨⟨by decide, ac3_fifo_spec.2.2.1 0 (0, 0) (0, 1) [] wDom3 (by decide)⟩,
    ⟨rfl, ac3_fifo_spec.2.2.2.2.2 1620 (initDomains solvedBoard)
      (initDomains solvedBoard) rfl⟩⟩

/-! ## Solved boards: units, uniqueness of values, and the `AC3` fixpoint -/

theorem flat3_getD {α : Type} (f : Nat → Nat → α) (dflt : α) (a c : Nat)
    (ha : a < 3) (hc : c < 3) :
    ((List.range 3).flatMap (fun i => (List.range 3).map (fun j => f i j))).getD
      (3 * a + c) dflt = f a c := by
  interval_cases a <;> interval_cases c <;> rfl

theorem wf_row_mem {b : Board} (hwf : WF b) {i : Nat} (hi : i < 9) :
    b.getD i [] ∈ b ∧ (b.getD i []).length = 9 := by
  have hb : i < b.length := by rw [hwf.1]; exact hi
  have hmem : b.getD i [] ∈ b := by
    rw [List.getD_eq_getElem _ _ hb]
    exact List.getElem_mem hb
  exact ⟨hmem, hwf.2 _ hmem⟩

theorem cellVal_mem_row {b : Board} (hwf : WF b) {i j : Nat} (hi : i < 9) (hj : j < 9) :
    cellVal b (i, j) ∈ b.getD i [] := by
  obtain ⟨-, hlen⟩ := wf_row_mem hwf hi
  have hj' : j < (b.getD i []).length := by rw [hlen]; exact hj
  rw [cellVal]
  rw [List.getD_eq_getElem _ _ hj']
  exact List.getElem_mem hj'

theorem no_zero_of_solved {b : Board} (hs : is_solved b = true) :
    ∀ r ∈ b, 0 ∉ r := by
  rw [is_solved, Bool.and_eq_true] at hs
  have h0 : zeroCount b = 0 := by simpa using hs.1
  rw [zeroCount, get_rows] at h0
  intro r hr hmem
  have hc : r.count 0 = 0 :=
    List.sum_eq_zero_iff.mp h0 _ (List.mem_map.mpr ⟨r, hr, rfl⟩)
  rw [List.count_eq_zero] at hc
  exact hc hmem

theorem solved_is_valid {b : Board} (hs : is_solved b = true) : is_valid b = true := by
  rw [is_solved, Bool.and_eq_true] at hs
  exact hs.2

theorem cellVal_ne_zero {b : Board} (hwf : WF b) (hs : is_solved b = true)
    {i j : Nat} (hi : i < 9) (hj : j < 9) : cellVal b (i, j) ≠ 0 := by
  intro h0
  exact no_zero_of_solved hs _ (wf_row_mem hwf hi).1 (h0 ▸ cellVal_mem_row hwf hi hj)

theorem nonzero_filter_eq {u : List Nat} (hall : ∀ x ∈ u, x ≠ 0) :
    u.filter (fun v => v ≠ 0) = u :=
  List.filter_eq_self.mpr (fun a ha => by simp [hall a ha])

theorem solved_row_nodup {b : Board} (hwf : WF b) (hs : is_solved b = true)
    {i : Nat} (hi : i < 9) : (b.getD i []).Nodup := by
  have hv := solved_is_valid hs
  rw [is_valid, Bool.and_eq_true, Bool.and_eq_true] at hv
  have hr := (valid_iff _).mp hv.1.1 (b.getD i []) (wf_row_mem hwf hi).1
  have hall : ∀ x ∈ b.getD i [], x ≠ 0 := fun x hx h0 =>
    no_zero_of_solved hs _ (wf_row_mem hwf hi).1 (h0 ▸ hx)
  rwa [nonzero_filter_eq hall] at hr

theorem colList_entry {b : Board} (hwf : WF b) {i j : Nat} (hi : i < 9) :
    (b.map (fun row => row.getD j 0)).getD i 0 = cellVal b (i, j) := by
  have hb : i < b.length := hwf.1 ▸ hi
  have hb' : i < (b.map (fun row => row.getD j 0)).length := by
    rw [List.length_map]; exact hb
  rw [cellVal, List.getD_eq_getElem _ _ hb', List.getElem_map, List.getD_eq_getElem _ _ hb]

theorem get_columns_entry {b : Board} {j : Nat} (hj : j < 9) :
    (get_columns b).getD j [] = b.map (fun row => row.getD j 0) := by
  rw [get_columns, get_rows]
  have hj' : j < ((List.range 9).map
      (fun i => b.map (fun row => row.getD i 0))).length := by
    rw [List.length_map, List.length_range]; exact hj
  rw [List.getD_eq_getElem _ _ hj', List.getElem_map, List.getElem_range]

theorem get_columns_mem {b : Board} {j : Nat} (hj : j < 9) :
    b.map (fun row => row.getD j 0) ∈ get_columns b := by
  rw [← get_columns_entry hj]
  have hj' : j < (get_columns b).length := by
    rw [get_columns, List.length_map, List.length_range]; exact hj
  rw [List.getD_eq_getElem _ _ hj']
  exact List.getElem_mem hj'

theorem solved_col_nodup {b : Board} (hwf : WF b) (hs : is_solved b = true)
    {j : Nat} (hj : j < 9) : (b.map (fun row => row.getD j 0)).Nodup := by
  have hv := solved_is_valid hs
  rw [is_valid, Bool.and_eq_true, Bool.and_eq_true] at hv
  have hc := (valid_iff _).mp hv.1.2 _ (get_columns_mem hj)
  have hall : ∀ x ∈ b.map (fun row => row.getD j 0), x ≠ 0 := by
    intro x hx
    obtain ⟨row, hrow, rfl⟩ := List.mem_map.mp hx
    have hlen := hwf.2 row hrow
    have hj' : j < row.length := hlen ▸ hj
    rw [List.getD_eq_getElem _ _ hj']
    intro h0
    exact no_zero_of_solved hs row hrow (h0 ▸ List.getElem_mem hj')
  rwa [nonzero_filter_eq hall] at hc

/-- The region list holding cell `(i, j)`, exposed through `get_regions`. -/
theorem get_regions_entry {b : Board} {rb cb : Nat} (hrb : rb < 3) (hcb : cb < 3) :
    (get_regions b).getD (3 * rb + cb) [] =
      (List.range 3).flatMap (fun di => (List.range 3).map (fun dj =>
        cellVal b (3 * rb + di, 3 * cb + dj))) := by
  rw [get_regions]
  exact flat3_getD _ _ rb cb hrb hcb

theorem get_regions_mem {b : Board} {rb cb : Nat} (hrb : rb < 3) (hcb : cb < 3) :
    (List.range 3).flatMap (fun di => (List.range 3).map (fun dj =>
      cellVal b (3 * rb + di, 3 * cb + dj))) ∈ get_regions b := by
  rw [← get_regions_entry hrb hcb]
  have hlen : (get_regions b).length = 9 := by
    rw [get_regions]
    rfl
  have hidx : 3 * rb + cb < (get_regions b).length := by rw [hlen]; omega
  rw [List.getD_eq_getElem _ _ hidx]
  exact List.getElem_mem hidx

theorem region_entry {b : Board} {rb cb di dj : Nat} (hdi : di < 3) (hdj : dj < 3) :
    ((List.range 3).flatMap (fun di => (List.range 3).map (fun dj =>
      cellVal b (3 * rb + di, 3 * cb + dj)))).getD (3 * di + dj) 0 =
      cellVal b (3 * rb + di, 3 * cb + dj) :=
  flat3_getD _ _ di dj hdi hdj

theorem region_all_nonzero {b : Board} (hwf : WF b) (hs : is_solved b = true)
    {rb cb : Nat} (hrb : rb < 3) (hcb : cb < 3) :
    ∀ x ∈ (List.range 3).flatMap (fun di => (List.range 3).map (fun dj =>
      cellVal b (3 * rb + di, 3 * cb + dj))), x ≠ 0 := by
  intro x hx
  simp only [List.mem_flatMap, List.mem_map, List.mem_range] at hx
  obtain ⟨di, hdi, dj, hdj, rfl⟩ := hx
  exact cellVal_ne_zero hwf hs (by omega) (by omega)

theorem solved_region_nodup {b : Board} (hwf : WF b) (hs : is_solved b = true)
    {rb cb : Nat} (hrb : rb < 3) (hcb : cb < 3) :
    ((List.range 3).flatMap (fun di => (List.range 3).map (fun dj =>
      cellVal b (3 * rb + di, 3 * cb + dj)))).Nodup := by
  have hv := solved_is_valid hs
  rw [is_valid, Bool.and_eq_true, Bool.and_eq_true] at hv
  have hr := (valid_iff _).mp hv.2 _ (get_regions_mem hrb hcb)
  rwa [nonzero_filter_eq (region_all_nonzero hwf hs hrb hcb)] at hr

/-- Distinct neighboring cells of a solved board hold distinct values. -/
theorem solved_neighbor_vals_ne {b : Board} (hwf : WF b) (hs : is_solved b = true)
    {x y : Cell} (hx : x ∈ cells) (hy : y ∈ cells) (hn : Neighbor x y) :
    cellVal b x ≠ cellVal b y := by
  obtain ⟨hx1, hx2⟩ := mem_cells.mp hx
  obtain ⟨hy1, hy2⟩ := mem_cells.mp hy
  obtain ⟨hne, hcase⟩ := hn
  rcases hcase with h | h | ⟨h1, h2⟩
  · -- shared row
    have hlen := (wf_row_mem hwf hx1).2
    have hx2' : x.2 < (b.getD x.1 []).length := hlen ▸ hx2
    have hy2' : y.2 < (b.getD x.1 []).length := hlen ▸ hy2
    have hcv1 : cellVal b x = (b.getD x.1 [])[x.2] := by
      rw [cellVal, List.getD_eq_getElem _ _ hx2']
    have hcv2 : cellVal b y = (b.getD x.1 [])[y.2] := by
      rw [cellVal, ← h, List.getD_eq_getElem _ _ hy2']
    intro heq
    have hij : x.2 = y.2 :=
      ((solved_row_nodup hwf hs hx1).getElem_inj_iff).mp
        (by rw [← hcv1, ← hcv2]; exact heq)
    exact hne (Prod.ext h hij)
  · -- shared column
    have hlen : (b.map (fun row => row.getD x.2 0)).length = 9 := by
      rw [List.length_map, hwf.1]
    have hx1' : x.1 < (b.map (fun row => row.getD x.2 0)).length := hlen ▸ hx1
    have hy1' : y.1 < (b.map (fun row => row.getD x.2 0)).length := hlen ▸ hy1
    have e1 : cellVal b x = (b.map (fun row => row.getD x.2 0))[x.1] := by
      have e := colList_entry (b := b) (j := x.2) hwf hx1
      rw [List.getD_eq_getElem _ _ hx1'] at e
      exact e.symm
    have e2 : cellVal b y = (b.map (fun row => row.getD x.2 0))[y.1] := by
      have e := colList_entry (b := b) (j := x.2) hwf hy1
      rw [List.getD_eq_getElem _ _ hy1'] at e
      rw [e]
      show cellVal b (y.1, y.2) = cellVal b (y.1, x.2)
      rw [h]
    intro heq
    have hij : x.1 = y.1 :=
      ((solved_col_nodup hwf hs hx2).getElem_inj_iff).mp
        (by rw [← e1, ← e2]; exact heq)
    exact hne (Prod.ext hij h)
  · -- shared 3×3 box
    have hrb : x.1 / 3 < 3 := by omega
    have hcb : x.2 / 3 < 3 := by omega
    have hrlen : ((List.range 3).flatMap (fun di => (List.range 3).map (fun dj =>
        cellVal b (3 * (x.1 / 3) + di, 3 * (x.2 / 3) + dj)))).length = 9 := by
      rfl
    have hp' : 3 * (x.1 % 3) + x.2 % 3 <
        ((List.range 3).flatMap (fun di => (List.range 3).map (fun dj =>
          cellVal b (3 * (x.1 / 3) + di, 3 * (x.2 / 3) + dj)))).length := by
      rw [hrlen]; omega
    have hq' : 3 * (y.1 % 3) + y.2 % 3 <
        ((List.range 3).flatMap (fun di => (List.range 3).map (fun dj =>
          cellVal b (3 * (x.1 / 3) + di, 3 * (x.2 / 3) + dj)))).length := by
      rw [hrlen]; omega
    have e1 : cellVal b x = ((List.range 3).flatMap (fun di => (List.range 3).map
        (fun dj => cellVal b (3 * (x.1 / 3) + di, 3 * (x.2 / 3) + dj))))[
          3 * (x.1 % 3) + x.2 % 3] := by
      have e := @region_entry b (x.1 / 3) (x.2 / 3) (x.1 % 3) (x.2 % 3)
        (by omega) (by omega)
      rw [List.getD_eq_getElem _ _ hp'] at e
      rw [e]
      have hxe : (3 * (x.1 / 3) + x.1 % 3, 3 * (x.2 / 3) + x.2 % 3) = x :=
        Prod.ext (by omega) (by omega)
      rw [hxe]
    have e2 : cellVal b y = ((List.range 3).flatMap (fun di => (List.range 3).map
        (fun dj => cellVal b (3 * (x.1 / 3) + di, 3 * (x.2 / 3) + dj))))[
          3 * (y.1 % 3) + y.2 % 3] := by
      have e := @region_entry b (x.1 / 3) (x.2 / 3) (y.1 % 3) (y.2 % 3)
        (by omega) (by omega)
      rw [List.getD_eq_getElem _ _ hq'] at e
      rw [e]
      have hye : (3 * (x.1 / 3) + y.1 % 3, 3 * (x.2 / 3) + y.2 % 3) = y :=
        Prod.ext (by omega) (by omega)
      rw [hye]
    intro heq
    have hpq : 3 * (x.1 % 3) + x.2 % 3 = 3 * (y.1 % 3) + y.2 % 3 :=
      ((solved_region_nodup hwf hs hrb hcb).getElem_inj_iff).mp
        (by rw [← e1, ← e2]; exact heq)
    exact hne (Prod.ext (by omega) (by omega))

/-- A worklist run over domains no arc can revise drains the queue without
touching the domains, provided the fuel covers the queue. -/
theorem ac3Fuel_no_change (dom : Cell → List Nat)
    (hnc : ∀ x y : Cell, x ∈ cells → y ∈ cells → Neighbor x y →
      reviseDom dom x y = dom x) :
    ∀ q : List (Cell × Cell), ArcsWF q → ∀ f, q.length ≤ f →
      ac3Fuel f q dom = some (true, dom) := by
  intro q
  induction q with
  | nil =>
    intro _ f _
    cases f <;> rfl
  | cons a rest ih =>
    intro hwf f hf
    obtain ⟨x, y⟩ := a
    cases f with
    | zero => simp at hf
    | succ f =>
      obtain ⟨hxc, hyc, hn⟩ := hwf (x, y) (List.mem_cons_self _ _)
      rw [ac3Fuel, if_pos (hnc x y hxc hyc hn)]
      refine ih (fun a ha => hwf a (List.mem_cons_of_mem _ ha)) f ?_
      have := List.length_cons (x, y) rest ▸ hf
      omega

theorem initDomains_solved_singleton {b : Board} (hwf : WF b)
    (hs : is_solved b = true) {c : Cell} (hc : c ∈ cells) :
    initDomains b c = [cellVal b c] := by
  obtain ⟨h1, h2⟩ := mem_cells.mp hc
  rw [initDomains, if_neg]
  intro h0
  exact cellVal_ne_zero hwf hs h1 h2 (by
    have : cellVal b (c.1, c.2) = cellVal b c := rfl
    rw [this]
    exact h0)

theorem solved_no_change {b : Board} (hwf : WF b) (hs : is_solved b = true) :
    ∀ x y : Cell, x ∈ cells → y ∈ cells → Neighbor x y →
      reviseDom (initDomains b) x y = initDomains b x := by
  intro x y hx hy hn
  rw [reviseDom, initDomains_solved_singleton hwf hs hx,
    initDomains_solved_singleton hwf hs hy]
  have hne : cellVal b y ≠ cellVal b x :=
    Ne.symm (solved_neighbor_vals_ne hwf hs hx hy hn)
  simp [reviseKeep, hne]

theorem set_getElem_self_eq {α : Type} {l : List α} {i : Nat} (h : i < l.length) :
    l.set i l[i] = l := by
  apply List.ext_getElem
  · rw [List.length_set]
  · intro n h1 h2
    by_cases hn : i = n
    · subst hn
      rw [List.getElem_set_self]
    · rw [List.getElem_set_ne hn]

theorem setCell_self {b : Board} (hwf : WF b) {c : Cell} (hc : c ∈ cells) :
    setCell b c (cellVal b c) = b := by
  obtain ⟨h1, h2⟩ := mem_cells.mp hc
  have hb : c.1 < b.length := hwf.1 ▸ h1
  have hr : c.2 < (b.getD c.1 []).length := by
    rw [(wf_row_mem hwf h1).2]; exact h2
  rw [setCell, cellVal]
  rw [List.getD_eq_getElem _ _ hr, set_getElem_self_eq hr]
  rw [List.getD_eq_getElem _ _ hb, set_getElem_self_eq hb]

theorem writeBack_id {b : Board} (hwf : WF b) (dom : Cell → List Nat)
    (hdom : ∀ c ∈ cells, dom c = [cellVal b c]) :
    writeBack b dom = some b := by
  rw [writeBack]
  have hgen : ∀ l : List Cell, (∀ c ∈ l, c ∈ cells) →
      l.foldl (fun ob c =>
        match ob, (dom c).head? with
        | some bb, some v => some (setCell bb c v)
        | _, _ => none) (some b) = some b := by
    intro l
    induction l with
    | nil => intro _; rfl
    | cons c rest ih =>
      intro hsub
      rw [List.foldl_cons]
      have hc := hsub c (List.mem_cons_self _ _)
      rw [hdom c hc]
      show rest.foldl _ (some (setCell b c (cellVal b c))) = some b
      rw [setCell_self hwf hc]
      exact ih (fun d hd => hsub d (List.mem_cons_of_mem _ hd))
  exact hgen cells (fun c hc => hc)

/-- C9: feeding a fully filled, rule-valid board to `solve` takes the
`AC3`-only success path and writes every cell back with exactly its
original value: the board is returned unchanged. -/
theorem solve_roundtrip_on_solved (b : Board) (bf af : Nat) (hwf : WF b)
    (hs : is_solved b = true) (haf : 1620 ≤ af) :
    solveFuel bf af b = some (.solvedByAC3, b) := by
  have hv : is_valid b = true := solved_is_valid hs
  have hrun : ac3Fuel af sudokuArcs (initDomains b) = some (true, initDomains b) :=
    ac3Fuel_no_change (initDomains b) (solved_no_change hwf hs) sudokuArcs
      sudokuArcs_wf af (by rw [sudokuArcs_length_eq]; exact haf)
  rw [solveFuel, hv, if_neg (by simp), hrun]
  show (if true && is_solved b then _ else _) = _
  rw [hs]
  show (writeBack b (initDomains b)).map _ = _
  rw [writeBack_id hwf (initDomains b) (fun c hc => initDomains_solved_singleton hwf hs hc)]
  rfl

/-- Witness for `solve_roundtrip_on_solved` at the concrete solved grid. -/
theorem solve_roundtrip_on_solved_witness :
    WF solvedBoard ∧ is_solved solvedBoard = true ∧ 1620 ≤ 1620 ∧
    solveFuel 1 1620 solvedBoard = some (.solvedByAC3, solvedBoard) :=
  ⟨by decide, by decide, by decide,
    solve_roundtrip_on_solved solvedBoard 1 1620 (by decide) (by decide) (by decide)⟩

/-! ## The snapshot aliasing in `BACKTRACK` and the crash path of `solve` -/

/-- C1 is falsified by the code: the snapshot
`{var: self.get_domain(var) for var in self.VARIABLES}` copies references,
not values.  Starting from domains `(0,0) ↦ {1,2}`, `(0,1) ↦ {1,2}`, after
the trial assignment `Domain[(0,0)] = {1}` and the single inference
revision `REVISE((0,1), (0,0))`, the previously taken snapshot's view of
`(0,1)` has changed from `{1,2}` to `{2}`; and after the restore
`self.domain = saved_domains` the live domain of `(0,1)` is still `{2}`,
not its pre-trial value `{1,2}` — sibling branches do observe each other's
pruning. -/
theorem snapshot_shares_sets_cex :
    snapshotView heapStart heapSnap (0, 1) = [1, 2] ∧
    liveDomain heapStart (0, 1) = [1, 2] ∧
    liveDomain (assignTrial heapStart (0, 0) 1) (0, 0) = [1] ∧
    snapshotView heapAfterInfer heapSnap (0, 1) = [2] ∧
    liveDomain heapRestored (0, 1) = [2] ∧
    liveDomain heapRestored (0, 0) = [1, 2] :=
  ⟨rfl, rfl, rfl, rfl, rfl, rfl⟩

/-- C2 is falsified by the code: `unsatBoard` is structurally valid, yet the
initial `AC3` pass fails leaving `Domain[(0,0)]` empty, the backtracking
search returns `False` (`some none`), `solve` nevertheless proceeds to the
write-back loop, and `value.pop()` on the empty domain raises `KeyError`
(the embedded run is `none`).  No "no solution found" result is ever
produced — `SolveOutcome` has no such value because the source prints
"Sudoku solved by BACKTRACKING_SEARCH" even on search failure. -/
theorem solve_crashes_on_unsat_cex :
    is_valid unsatBoard = true ∧
    unsatRunFlag = some false ∧
    unsatSearch = some none ∧
    solveFuel 5 2000 unsatBoard = none :=
  ⟨by decide, by decide, by decide, by decide⟩

end SudokuSpec
